import Mathlib

/-!
Verification of the prpl data-model visualizer core (shared utilities in
`dm_visualizers/utils.py` and the reference walker in
`dm_visualizers/show_logical_stack.py`).

The data model store is an insertion-ordered association list from dotted
paths to string values, mirroring the Python dict built by `parse_dm`.
String operations are modelled on the underlying character lists; Unicode
character classification (combining marks, East-Asian width) is abstracted
as a pair of predicates on characters, since the layout properties hold for
every classification.
-/

/-- Characters removed by a bare Python `strip()` call (whitespace). -/
def isSpaceCh (c : Char) : Bool := c.isWhitespace

/-- Drop matching characters from the front of a character list. -/
def lstripWith (p : Char → Bool) (l : List Char) : List Char := l.dropWhile p

/-- Drop matching characters from the back of a character list. -/
def rstripWith (p : Char → Bool) (l : List Char) : List Char :=
  (l.reverse.dropWhile p).reverse

/-- Python `text.strip()`: trim whitespace from both ends. -/
def pyStrip (s : String) : String :=
  String.mk (rstripWith isSpaceCh (lstripWith isSpaceCh s.data))

/-- Python `text.strip('"')`: trim double quotes from both ends. -/
def stripQuotes (s : String) : String :=
  String.mk (rstripWith (fun c => c = '"') (lstripWith (fun c => c = '"') s.data))

/-- Python `text.rstrip('.')`: trim trailing dots. -/
def rstripDots (s : String) : String :=
  String.mk (rstripWith (fun c => c = '.') s.data)

/-- Python `text.split(',')` on a character list. -/
def splitCommaL : List Char → List (List Char)
  | [] => [[]]
  | c :: cs =>
    let r := splitCommaL cs
    if c = ',' then [] :: r
    else
      match r with
      | [] => [[c]]
      | h :: t => (c :: h) :: t

/-- Python `text.split(',')`. -/
def splitComma (s : String) : List String := (splitCommaL s.data).map String.mk

/-- The parsed data model: an insertion-ordered association list, as built by
`parse_dm` into a Python dict. -/
abbrev Dm := List (String × String)

/-- Python dict lookup `dm[key]` / `key in dm` combined: the value stored at
`key`, if present. -/
def lookupDm : Dm → String → Option String
  | [], _ => none
  | (k, v) :: rest, key => if k = key then some v else lookupDm rest key

/-- Python dict assignment `dm[k] = v`: replace in place when the key exists
(keeping its position), otherwise append at the end. -/
def insertDm : Dm → String → String → Dm
  | [], k, v => [(k, v)]
  | (k', v') :: rest, k, v =>
    if k' = k then (k, v) :: rest else (k', v') :: insertDm rest k v

/-- Split a character list at the first occurrence of `ch`, returning the
parts before and after it, or `none` when `ch` does not occur. -/
def splitFirst (ch : Char) : List Char → Option (List Char × List Char)
  | [] => none
  | c :: cs =>
    if c = ch then some ([], cs)
    else (splitFirst ch cs).map (fun ab => (c :: ab.1, ab.2))

/-- One line of `parse_dm`: `re.match(r'^(Device\..+?)=(.*)$', line.strip())`.
The non-greedy group means the delimiting `=` is the first `=` that leaves at
least one character between the `Device.` root token and itself; the first
component is the path (group 1), the second the raw value (group 2). -/
def matchLine (line : String) : Option (String × String) :=
  let l := (pyStrip line).data
  if l.take 7 = ("Device.").data then
    match l.drop 7 with
    | [] => none
    | c :: rest =>
      match splitFirst '=' rest with
      | none => none
      | some ab => some (String.mk (l.take 7 ++ c :: ab.1), String.mk ab.2)
  else none

/-- The body of the `parse_dm` loop for a single line: on a regex match, store
the value with surrounding double quotes stripped. -/
def parseStep (dm : Dm) (line : String) : Dm :=
  match matchLine line with
  | some pv => insertDm dm pv.1 (stripQuotes pv.2)
  | none => dm

/-- Model of `parse_dm`, over the already-split lines of the input file. -/
def parse_dm (lines : List String) : Dm := lines.foldl parseStep []

/-- Specification-side helper: the matched `(path, raw value)` pairs of all
lines whose parsed path equals `p`, in source order. -/
def matchesFor (lines : List String) (p : String) : List (String × String) :=
  (lines.filterMap matchLine).filter (fun kv => kv.1 == p)

/-- Model of `get_attr(dm, prefix, attr)`: try `prefix + "." + attr`, then
`prefix + ".." + attr`. -/
def get_attr (dm : Dm) (pre attr : String) : Option String :=
  match lookupDm dm (pre ++ "." ++ attr) with
  | some v => some v
  | none => lookupDm dm (pre ++ ".." ++ attr)

/-- The truthiness test `val and val.strip()` used by `resolve_name`. -/
def isNonBlank : Option String → Bool
  | none => false
  | some s => !(s == "") && !(pyStrip s == "")

/-- Model of `resolve_name(dm, obj_path)` from `show_logical_stack.py`. -/
def resolve_name (dm : Dm) (objPath : String) : String :=
  let obj := rstripDots objPath
  let name := get_attr dm obj "Name"
  let aliasV := get_attr dm obj "Alias"
  if isNonBlank name then name.getD ""
  else if isNonBlank aliasV then aliasV.getD ""
  else ""

/-- The list comprehension in `get_lower_layers`:
`[r.strip().rstrip('.') for r in val.split(',') if r.strip()]`. -/
def splitRefs (v : String) : List String :=
  ((splitComma v).filter (fun r => !(pyStrip r == ""))).map
    (fun r => rstripDots (pyStrip r))

/-- Model of `get_lower_layers(dm, obj_path)` from `show_logical_stack.py`; the
`if not val` guard maps both a missing attribute and an empty value to `[]`. -/
def get_lower_layers (dm : Dm) (objPath : String) : List String :=
  match get_attr dm objPath "LowerLayers" with
  | none => []
  | some v => if v = "" then [] else splitRefs v

/-- Sequentially walk a list of lower-layer references at one depth,
concatenating the visit lists (the `for lower in lowers` loop). -/
def walkChildren (f : String → Nat → Option (List (String × Nat))) :
    List String → Nat → Option (List (String × Nat))
  | [], _ => some []
  | p :: ps, d =>
    match f p d, walkChildren f ps d with
    | some v, some vs => some (v ++ vs)
    | _, _ => none

/-- Model of `walk_stack(dm, obj_path, depth)`: the sequence of `(object_path, depth)`
pairs printed by the recursive walk, with an explicit fuel bound standing in
for the unbounded Python recursion (`none` when the fuel is exhausted). -/
def walkFuel (dm : Dm) : Nat → String → Nat → Option (List (String × Nat))
  | 0, _, _ => none
  | n + 1, path, depth =>
    let obj := rstripDots path
    match walkChildren (walkFuel dm n) (get_lower_layers dm obj) (depth + 1) with
    | none => none
    | some rest => some ((obj, depth) :: rest)

/-- Concatenate the chain enumerations of a list of lower-layer references. -/
def chainsChildren (f : String → Option (List (List String))) :
    List String → Option (List (List String))
  | [] => some []
  | p :: ps =>
    match f p, chainsChildren f ps with
    | some cs, some rest => some (cs ++ rest)
    | _, _ => none

/-- Specification-side chain enumeration used to state the corrected walk
property: all lower-layer chains starting at the (normalized) given path, in
depth-first pre-order, each chain listing the nodes from the start down. -/
def chainsFuel (dm : Dm) : Nat → String → Option (List (List String))
  | 0, _ => none
  | n + 1, path =>
    let obj := rstripDots path
    match chainsChildren (chainsFuel dm n) (get_lower_layers dm obj) with
    | none => none
    | some css => some ([obj] :: css.map (fun c => obj :: c))

/-- One lower-layer reference edge: `q` occurs in `get_lower_layers dm p`. -/
def stepRel (dm : Dm) (p q : String) : Prop := q ∈ get_lower_layers dm p

/-- Node `p` is reachable from the walk root along lower-layer references. -/
def Reaches (dm : Dm) (root p : String) : Prop :=
  Relation.ReflTransGen (stepRel dm) (rstripDots root) p

/-- The lower-layer reference graph reachable from `root` is acyclic: no node
reachable from the root lies on a reference cycle. -/
def AcyclicFrom (dm : Dm) (root : String) : Prop :=
  ∀ p, Reaches dm root p → ¬ Relation.TransGen (stepRel dm) p p

/-- Every string that can ever occur as a lower-layer reference target in
`dm`, plus the normalized root: a finite universe containing every node the
walk can visit. -/
def nodeUniv (dm : Dm) (root : String) : List String :=
  rstripDots root :: (dm.map (fun kv => splitRefs kv.2)).flatten

/-- Abstract Unicode character classification: which characters are combining
marks and which are East-Asian wide/full-width (the two `unicodedata` queries
made by `display_width`). -/
structure UC where
  combining : Char → Bool
  wide : Char → Bool

/-- The display-column contribution of one character in `display_width`:
0 for a combining mark, 2 for a wide character, 1 otherwise. -/
def charWidth (u : UC) (c : Char) : Nat :=
  if u.combining c then 0 else if u.wide c then 2 else 1

/-- Model of `display_width(text)` from `utils.py`. -/
def display_width (u : UC) (s : String) : Nat := (s.data.map (charWidth u)).sum

/-- Python string repetition `s * n`. -/
def repeatStr (s : String) : Nat → String
  | 0 => ""
  | n + 1 => s ++ repeatStr s n

/-- Model of `pad_display(text, width, fill)` from `utils.py`. -/
def pad_display (u : UC) (text : String) (width : Nat) (fill : String) : String :=
  if width ≤ display_width u text then text
  else text ++ repeatStr fill (width - display_width u text)

/-- The truncation loop of `fit_display`: keep combining characters for free,
stop (dropping the rest) at the first non-combining character that would push
the used width past the target. -/
def clipLoop (u : UC) (width : Nat) : List Char → Nat → List Char
  | [], _ => []
  | c :: cs, used =>
    if u.combining c then c :: clipLoop u width cs used
    else
      let w := if u.wide c then 2 else 1
      if width < used + w then []
      else c :: clipLoop u width cs (used + w)

/-- Model of `fit_display(text, width, fill)` from `utils.py`. -/
def fit_display (u : UC) (text : String) (width : Nat) (fill : String) : String :=
  if display_width u text ≤ width then pad_display u text width fill
  else pad_display u (String.mk (clipLoop u width text.data 0)) width fill

/-- Model of `hline(char, width, left, right)` from `utils.py`; `len` in the source is
the code-point count, and a negative inner count yields the empty repetition,
matching truncated subtraction. -/
def hline (ch : String) (width : Nat) (capL capR : String) : String :=
  capL ++ repeatStr ch (width - capL.length - capR.length) ++ capR

/-- Model of `boxline(text, width, pad, fill)` from `utils.py`. -/
def boxline (u : UC) (text : String) (width padN : Nat) (fill : String) : String :=
  let inner := width - 2
  let content := repeatStr " " padN ++ text
  if inner < display_width u content then "│" ++ content ++ "│"
  else "│" ++ pad_display u content inner fill ++ "│"

/-- A classification in which every character is one column wide. -/
def uNarrow : UC := ⟨fun _ => false, fun _ => false⟩

/-- A classification in which `'中'` is East-Asian wide and nothing combines. -/
def uWide : UC := ⟨fun _ => false, fun c => c = '中'⟩

/-- A store whose lower-layer references form an acyclic diamond:
A refers to B and C, each of which refers to D. -/
def dmDiamond : Dm :=
  [("Device.A.LowerLayers", "Device.B,Device.C"),
   ("Device.B.LowerLayers", "Device.D"),
   ("Device.C.LowerLayers", "Device.D")]

/-- A rank function on the diamond's nodes that strictly increases along
every lower-layer reference edge. -/
def rnkDiamond (s : String) : Nat :=
  if s = "Device.A" then 0
  else if s = "Device.B" then 1
  else if s = "Device.C" then 1
  else 2

theorem str_data_append (a b : String) : (a ++ b).data = a.data ++ b.data := by
  cases a; cases b; rfl

theorem str_append_empty (s : String) : s ++ "" = s := by
  cases s with
  | mk l => show String.mk (l ++ []) = String.mk l; rw [List.append_nil]

theorem display_width_append (u : UC) (a b : String) :
    display_width u (a ++ b) = display_width u a + display_width u b := by
  unfold display_width
  rw [str_data_append, List.map_append, List.sum_append]

theorem display_width_mk (u : UC) (l : List Char) :
    display_width u (String.mk l) = (l.map (charWidth u)).sum := rfl

theorem display_width_repeat (u : UC) (s : String) (n : Nat) :
    display_width u (repeatStr s n) = n * display_width u s := by
  induction n with
  | zero => simp [repeatStr, display_width]
  | succ n ih =>
    rw [repeatStr, display_width_append, ih, Nat.succ_mul, Nat.add_comm]

theorem display_width_space (u : UC) : display_width u " " = charWidth u ' ' := by
  have h : (" " : String).data = [' '] := rfl
  simp [display_width, h]

theorem display_width_bar (u : UC) : display_width u "│" = charWidth u '│' := by
  have h : ("│" : String).data = ['│'] := rfl
  simp [display_width, h]

theorem pad_display_of_le (u : UC) (t : String) (W : Nat) (fill : String)
    (_h : display_width u t ≤ W) :
    pad_display u t W fill = t ++ repeatStr fill (W - display_width u t) := by
  unfold pad_display
  by_cases hc : W ≤ display_width u t
  · have he : W - display_width u t = 0 := Nat.sub_eq_zero_of_le hc
    rw [if_pos hc, he]
    exact (str_append_empty t).symm
  · rw [if_neg hc]

theorem pad_display_width (u : UC) (t : String) (W : Nat)
    (hsp : charWidth u ' ' = 1) (h : display_width u t ≤ W) :
    display_width u (pad_display u t W " ") = W := by
  rw [pad_display_of_le u t W " " h, display_width_append, display_width_repeat,
    display_width_space, hsp, Nat.mul_one]
  omega

theorem clipLoop_width (u : UC) (W : Nat) :
    ∀ (l : List Char) (used : Nat), used ≤ W →
      used + ((clipLoop u W l used).map (charWidth u)).sum ≤ W := by
  intro l
  induction l with
  | nil => intro used h; simpa [clipLoop] using h
  | cons c cs ih =>
    intro used h
    by_cases hcomb : u.combining c
    · have hcw : charWidth u c = 0 := by simp [charWidth, hcomb]
      have := ih used h
      simp only [clipLoop, if_pos hcomb, List.map_cons, List.sum_cons, hcw]
      omega
    · by_cases hlt : W < used + (if u.wide c then 2 else 1)
      · simp only [clipLoop, if_neg hcomb, if_pos hlt, List.map_nil, List.sum_nil]
        omega
      · have hcw : charWidth u c = (if u.wide c then 2 else 1) := by
          simp [charWidth, hcomb]
        have hle : used + (if u.wide c then 2 else 1) ≤ W := Nat.le_of_not_lt hlt
        have := ih (used + (if u.wide c then 2 else 1)) hle
        simp only [clipLoop, if_neg hcomb, if_neg hlt, List.map_cons, List.sum_cons, hcw]
        omega

theorem clipLoop_take (u : UC) (W : Nat) :
    ∀ (l : List Char) (used : Nat), ∃ k,
      clipLoop u W l used = l.take k ∧
      ∀ c cs', l.drop k = c :: cs' → u.combining c = false := by
  intro l
  induction l with
  | nil =>
    intro used
    exact ⟨0, rfl, fun c cs' h => by simp at h⟩
  | cons c cs ih =>
    intro used
    by_cases hcomb : u.combining c
    · obtain ⟨k, hk, hb⟩ := ih used
      refine ⟨k + 1, ?_, ?_⟩
      · simp only [clipLoop, if_pos hcomb, List.take_succ_cons, hk]
      · intro d ds h
        exact hb d ds (by simpa using h)
    · by_cases hlt : W < used + (if u.wide c then 2 else 1)
      · refine ⟨0, ?_, ?_⟩
        · simp [clipLoop, hcomb, hlt]
        · intro d ds h
          simp only [List.drop_zero] at h
          cases h
          simpa using hcomb
      · obtain ⟨k, hk, hb⟩ := ih (used + (if u.wide c then 2 else 1))
        refine ⟨k + 1, ?_, ?_⟩
        · simp only [clipLoop, if_neg hcomb, if_neg hlt, List.take_succ_cons, hk]
        · intro d ds h
          exact hb d ds (by simpa using h)

/-- C9: `display_width` is additive over string concatenation: for every
classification of combining and wide characters and all strings `a` and `b`,
`display_width (a ++ b) = display_width a + display_width b`, where each code
point contributes 0 (combining), 2 (wide) or 1 (otherwise). -/
theorem display_width_additive (u : UC) (a b : String) :
    display_width u (a ++ b) = display_width u a + display_width u b := by
  unfold display_width
  rw [str_data_append, List.map_append, List.sum_append]

/-- C7: for every text and target width `w`, `fit_display text w` returns a
string of display width exactly `w` (given that a space is one column wide):
text at most `w` columns wide is right-padded with spaces to exactly `w`, and
wider text is truncated to a code-point prefix that never cuts directly
before a combining mark, then padded to exactly `w`. -/
theorem fit_display_exact (u : UC) (text : String) (w : Nat)
    (hsp : charWidth u ' ' = 1) :
    display_width u (fit_display u text w " ") = w ∧
    (display_width u text ≤ w →
      fit_display u text w " " = text ++ repeatStr " " (w - display_width u text)) ∧
    (w < display_width u text →
      ∃ k, fit_display u text w " " =
          String.mk (text.data.take k) ++
            repeatStr " " (w - display_width u (String.mk (text.data.take k))) ∧
        ∀ c cs, text.data.drop k = c :: cs → u.combining c = false) := by
  by_cases h : display_width u text ≤ w
  · refine ⟨?_, fun _ => ?_, fun hlt => absurd hlt (by omega)⟩
    · rw [fit_display, if_pos h]
      exact pad_display_width u text w hsp h
    · rw [fit_display, if_pos h]
      exact pad_display_of_le u text w " " h
  · have hclip : display_width u (String.mk (clipLoop u w text.data 0)) ≤ w := by
      have := clipLoop_width u w text.data 0 (Nat.zero_le w)
      rw [display_width_mk]
      omega
    refine ⟨?_, fun hle => absurd hle h, fun _ => ?_⟩
    · rw [fit_display, if_neg h]
      exact pad_display_width u _ w hsp hclip
    · obtain ⟨k, hk, hb⟩ := clipLoop_take u w text.data 0
      refine ⟨k, ?_, hb⟩
      have hclip' : display_width u (String.mk (List.take k text.data)) ≤ w :=
        hk ▸ hclip
      rw [fit_display, if_neg h, hk]
      exact pad_display_of_le u _ w " " hclip'

/-- Witness for C7 at a concrete classification, text and width. -/
theorem fit_display_exact_witness :
    display_width uNarrow (fit_display uNarrow "interface" 4 " ") = 4 :=
  (fit_display_exact uNarrow "interface" 4 (by decide)).1

theorem sum_charWidth_ones (u : UC) :
    ∀ l : List Char, (∀ c ∈ l, charWidth u c = 1) →
      (l.map (charWidth u)).sum = l.length := by
  intro l
  induction l with
  | nil => intro _; rfl
  | cons c cs ih =>
    intro h
    have h1 : charWidth u c = 1 := h c (List.mem_cons_self c cs)
    have h2 := ih (fun d hd => h d (List.mem_cons_of_mem c hd))
    simp only [List.map_cons, List.sum_cons, List.length_cons, h1, h2]
    omega

theorem display_width_eq_length (u : UC) (s : String)
    (h : ∀ c ∈ s.data, charWidth u c = 1) :
    display_width u s = s.length := by
  unfold display_width
  exact sum_charWidth_ones u s.data h

/-- C8 (amended): `hline` and `boxline` are both exactly `width` display
columns wide provided the fill character, the caps, the padding space and the
border glyph are all single-column characters, the caps fit inside `width`,
and the padded content fits inside `width - 2`; without those conditions the
source functions can overflow the requested width (see the counterexample). -/
theorem hline_boxline_width (u : UC) (ch capL capR text : String) (width : Nat)
    (hch : ∀ c ∈ ch.data, charWidth u c = 1) (hchlen : ch.length = 1)
    (hcl : ∀ c ∈ capL.data, charWidth u c = 1)
    (hcr : ∀ c ∈ capR.data, charWidth u c = 1)
    (hcap : capL.length + capR.length ≤ width)
    (hbar : charWidth u '│' = 1) (hsp : charWidth u ' ' = 1)
    (h2 : 2 ≤ width)
    (hfit : display_width u (repeatStr " " 2 ++ text) ≤ width - 2) :
    display_width u (hline ch width capL capR) = width ∧
    display_width u (boxline u text width 2 " ") = width := by
  constructor
  · rw [hline, display_width_append, display_width_append, display_width_repeat,
      display_width_eq_length u ch hch, hchlen,
      display_width_eq_length u capL hcl, display_width_eq_length u capR hcr]
    omega
  · rw [boxline]
    have hnot : ¬ (width - 2 < display_width u (repeatStr " " 2 ++ text)) := by omega
    rw [if_neg hnot, display_width_append, display_width_append, display_width_bar,
      hbar, pad_display_width u _ _ hsp hfit]
    omega

/-- Witness for C8's amended theorem at concrete single-column glyphs. -/
theorem hline_boxline_width_witness :
    display_width uNarrow (hline "-" 10 "+" "+") = 10 ∧
    display_width uNarrow (boxline uNarrow "hi" 10 2 " ") = 10 :=
  hline_boxline_width uNarrow "-" "+" "+" "hi" 10 (by decide) (by decide)
    (by decide) (by decide) (by decide) (by decide) (by decide) (by decide)
    (by decide)

/-- C8 counterexample: with a wide fill character `hline` renders 8 columns
for a requested width of 4, and `boxline` overflows a width-4 box whose
content does not fit; neither output is `width` columns wide. -/
theorem hline_boxline_width_cex :
    display_width uWide (hline "中" 4 "" "") ≠ 4 ∧
    display_width uNarrow (boxline uNarrow "abcdef" 4 2 " ") ≠ 4 := by decide

theorem lookup_insert (dm : Dm) (k v p : String) :
    lookupDm (insertDm dm k v) p = if p = k then some v else lookupDm dm p := by
  induction dm with
  | nil =>
    by_cases h : p = k
    · subst h; simp [insertDm, lookupDm]
    · simp [insertDm, lookupDm, h, Ne.symm h]
  | cons kv rest ih =>
    obtain ⟨k', v'⟩ := kv
    by_cases hk : k' = k
    · subst hk
      simp only [insertDm, if_pos rfl]
      by_cases hp : p = k'
      · simp [lookupDm, hp]
      · simp [lookupDm, hp, Ne.symm hp]
    · simp only [insertDm, if_neg hk]
      by_cases hp' : k' = p
      · have hpk : ¬ p = k := fun h => hk (hp'.trans h)
        simp [lookupDm, hp', hpk]
      · simp [lookupDm, hp', ih]

theorem keys_insert (dm : Dm) (k v : String) :
    (insertDm dm k v).map Prod.fst =
      if k ∈ dm.map Prod.fst then dm.map Prod.fst else dm.map Prod.fst ++ [k] := by
  induction dm with
  | nil => simp [insertDm]
  | cons kv rest ih =>
    obtain ⟨k', v'⟩ := kv
    by_cases hk : k' = k
    · subst hk; simp [insertDm]
    · simp only [insertDm, if_neg hk, List.map_cons, List.mem_cons]
      have hne : ¬ k = k' := Ne.symm hk
      by_cases hmem : k ∈ rest.map Prod.fst
      · simp [hne, hmem, ih]
      · simp [hne, hmem, ih]

theorem keys_insert_nodup (dm : Dm) (k v : String)
    (h : (dm.map Prod.fst).Nodup) : ((insertDm dm k v).map Prod.fst).Nodup := by
  rw [keys_insert]
  by_cases hk : k ∈ dm.map Prod.fst
  · simpa [hk] using h
  · simp only [if_neg hk]
    rw [List.nodup_append]
    exact ⟨h, List.nodup_singleton k, by
      intro a ha hb
      rw [List.mem_singleton] at hb
      exact hk (hb ▸ ha)⟩

theorem parse_keys_nodup_aux :
    ∀ (lines : List String) (dm0 : Dm), (dm0.map Prod.fst).Nodup →
      ((lines.foldl parseStep dm0).map Prod.fst).Nodup := by
  intro lines
  induction lines with
  | nil => intro dm0 h; exact h
  | cons l rest ih =>
    intro dm0 h
    simp only [List.foldl_cons]
    apply ih
    unfold parseStep
    cases matchLine l with
    | none => exact h
    | some pv => exact keys_insert_nodup dm0 pv.1 _ h

theorem matchesFor_append (a b : List String) (p : String) :
    matchesFor (a ++ b) p = matchesFor a p ++ matchesFor b p := by
  unfold matchesFor
  rw [List.filterMap_append, List.filter_append]

theorem lookup_parse (p : String) (lines : List String) :
    lookupDm (parse_dm lines) p =
      (matchesFor lines p).getLast?.map (fun kv => stripQuotes kv.2) := by
  induction lines using List.reverseRecOn with
  | nil => rfl
  | append_singleton ls l ih =>
    rw [parse_dm, List.foldl_append]
    simp only [List.foldl_cons, List.foldl_nil]
    rw [matchesFor_append]
    cases hm : matchLine l with
    | none =>
      have h1 : matchesFor [l] p = [] := by simp [matchesFor, hm]
      rw [h1, List.append_nil]
      unfold parseStep
      rw [hm]
      exact ih
    | some kv =>
      obtain ⟨q, v⟩ := kv
      have h1 : matchesFor [l] p = if q == p then [(q, v)] else [] := by
        by_cases hq : (q == p) = true
        · simp [matchesFor, hm, hq]
        · simp [matchesFor, hm, hq]
      unfold parseStep
      rw [hm]
      show lookupDm (insertDm (parse_dm ls) q (stripQuotes v)) p = _
      rw [lookup_insert]
      by_cases hpq : p = q
      · subst hpq
        rw [if_pos rfl, h1, if_pos (beq_self_eq_true p), List.getLast?_concat]
        rfl
      · have hqp : (q == p) = false := beq_eq_false_iff_ne.mpr (Ne.symm hpq)
        rw [if_neg hpq, h1, hqp, if_neg (by simp), List.append_nil]
        exact ih

/-- C10: `parse_dm` never fails, and when the same path occurs on more than
one line matching the root-token pattern, the stored value is the value of
the last such line (with surrounding quotes stripped): the lookup of any path
in the parsed store equals the quote-stripped raw value of the last matching
line for that path, and is `none` when no line matches it. -/
theorem parse_dm_last_match (lines : List String) (p : String) :
    lookupDm (parse_dm lines) p =
      (matchesFor lines p).getLast?.map (fun kv => stripQuotes kv.2) :=
  lookup_parse p lines

/-- C2 (amended): every parsed path is unique in the store; for every source
line matching the root-token pattern that is the last matching line for its
path, the path's value equals that line's text after the delimiting `=` with
surrounding quote characters stripped (an earlier matching line for the same
path is overwritten); and every non-matching line contributes nothing. -/
theorem parse_dm_spec (lines : List String) :
    ((parse_dm lines).map Prod.fst).Nodup ∧
    (∀ l1 line l2 p v, lines = l1 ++ line :: l2 → matchLine line = some (p, v) →
      (∀ l ∈ l2, ∀ q w, matchLine l = some (q, w) → q ≠ p) →
      lookupDm (parse_dm lines) p = some (stripQuotes v)) ∧
    (∀ l1 line l2, matchLine line = none →
      parse_dm (l1 ++ line :: l2) = parse_dm (l1 ++ l2)) := by
  refine ⟨parse_keys_nodup_aux lines [] List.nodup_nil, ?_, ?_⟩
  · intro l1 line l2 p v hsplit hm hlast
    subst hsplit
    rw [lookup_parse]
    have hsingle : matchesFor [line] p = [(p, v)] := by
      simp [matchesFor, hm]
    have hsplit2 : matchesFor (l1 ++ line :: l2) p =
        matchesFor l1 p ++ ([(p, v)] ++ matchesFor l2 p) := by
      rw [show l1 ++ line :: l2 = l1 ++ ([line] ++ l2) by simp,
        matchesFor_append, matchesFor_append, hsingle]
    have hnil : matchesFor l2 p = [] := by
      unfold matchesFor
      rw [List.filter_eq_nil_iff]
      intro kv hkv
      obtain ⟨l, hl, hml⟩ := List.mem_filterMap.mp hkv
      have hne : kv.1 ≠ p := hlast l hl kv.1 kv.2 (by simpa using hml)
      simp [hne]
    rw [hsplit2, hnil, List.append_nil, List.getLast?_concat]
    rfl
  · intro l1 line l2 hm
    have hstep : ∀ dm0 : Dm, parseStep dm0 line = dm0 := by
      intro dm0; unfold parseStep; rw [hm]
    unfold parse_dm
    rw [List.foldl_append, List.foldl_append]
    simp only [List.foldl_cons]
    rw [hstep]

/-- C2 counterexample: the first of two matching lines with the same path does
not determine the stored value, so the claim's universal quantification over
all matching source lines fails (the second line overwrites the first). -/
theorem parse_dm_spec_cex :
    matchLine "Device.A=1" = some ("Device.A", "1") ∧
    lookupDm (parse_dm ["Device.A=1", "Device.A=2"]) "Device.A" ≠
      some (stripQuotes "1") := by decide

/-- Witness for C2's amended theorem on a concrete two-line dump. -/
theorem parse_dm_spec_witness :
    lookupDm (parse_dm ["# comment", "Device.A=\"v\""]) "Device.A" = some "v" := by
  have h := (parse_dm_spec ["# comment", "Device.A=\"v\""]).2.1 ["# comment"]
    "Device.A=\"v\"" [] "Device.A" "\"v\"" rfl (by decide)
    (fun l hl => absurd hl (List.not_mem_nil l))
  rw [h]
  decide

/-- C1 (amended): `get_attr` tries `object_path + "." + attribute` first and
then `object_path + ".." + attribute`, returning `none` exactly when neither
key is present; it performs no trailing-separator normalization on the object
path itself (the callers strip trailing dots before calling, see the
counterexample); and a store holding the attribute under one separator and a
store holding it under two resolve to the identical value. -/
theorem get_attr_fallback (dm dm2 : Dm) (p a v : String) :
    (lookupDm dm (p ++ "." ++ a) = some v → get_attr dm p a = some v) ∧
    (lookupDm dm (p ++ "." ++ a) = none →
      get_attr dm p a = lookupDm dm (p ++ ".." ++ a)) ∧
    (get_attr dm p a = none ↔
      lookupDm dm (p ++ "." ++ a) = none ∧ lookupDm dm (p ++ ".." ++ a) = none) ∧
    (lookupDm dm (p ++ "." ++ a) = some v → lookupDm dm2 (p ++ "." ++ a) = none →
      lookupDm dm2 (p ++ ".." ++ a) = some v → get_attr dm p a = get_attr dm2 p a) := by
  refine ⟨?_, ?_, ?_, ?_⟩
  · intro h; rw [get_attr, h]
  · intro h; rw [get_attr, h]
  · cases hl : lookupDm dm (p ++ "." ++ a) with
    | some w => simp [get_attr, hl]
    | none => simp [get_attr, hl]
  · intro h1 h2 h3
    rw [get_attr, h1, get_attr, h2, h3]

/-- Witness for C1's amended theorem: a one-separator store and a
two-separator store resolve the same attribute to the identical value. -/
theorem get_attr_fallback_witness :
    get_attr [("Device.X.Name", "n")] "Device.X" "Name" =
      get_attr [("Device.X..Name", "n")] "Device.X" "Name" :=
  (get_attr_fallback [("Device.X.Name", "n")] [("Device.X..Name", "n")]
    "Device.X" "Name" "n").2.2.2 (by decide) (by decide) (by decide)

/-- C1 counterexample: `get_attr` does not normalize a trailing separator on
the object path before trying either key form — with the attribute stored as
`Device.X.Name`, looking it up under the object path `Device.X.` fails while
`Device.X` succeeds, so the two are not resolved identically. -/
theorem get_attr_no_normalize_cex :
    get_attr [("Device.X.Name", "n")] "Device.X." "Name" ≠
      get_attr [("Device.X.Name", "n")] "Device.X" "Name" := by decide

theorem pyStrip_empty : pyStrip "" = "" := rfl

theorem isNonBlank_true (s : String) (h : pyStrip s ≠ "") :
    isNonBlank (some s) = true := by
  have hs : s ≠ "" := fun h0 => h (by rw [h0]; rfl)
  simp [isNonBlank, hs, h]

theorem isNonBlank_false (o : Option String)
    (h : ∀ s, o = some s → pyStrip s = "") : isNonBlank o = false := by
  cases o with
  | none => rfl
  | some s => simp [isNonBlank, h s rfl]

/-- C6: `resolve_name` returns the object's `Name` attribute when it exists
and is non-blank, otherwise its `Alias` attribute when that exists and is
non-blank, otherwise the empty string; `Name` always takes precedence over
`Alias` (the object path is first normalized by stripping trailing dots). -/
theorem resolve_name_precedence (dm : Dm) (objPath : String) :
    (∀ s, get_attr dm (rstripDots objPath) "Name" = some s → pyStrip s ≠ "" →
      resolve_name dm objPath = s) ∧
    ((∀ s, get_attr dm (rstripDots objPath) "Name" = some s → pyStrip s = "") →
      ∀ s, get_attr dm (rstripDots objPath) "Alias" = some s → pyStrip s ≠ "" →
        resolve_name dm objPath = s) ∧
    ((∀ s, get_attr dm (rstripDots objPath) "Name" = some s → pyStrip s = "") →
      (∀ s, get_attr dm (rstripDots objPath) "Alias" = some s → pyStrip s = "") →
      resolve_name dm objPath = "") := by
  refine ⟨?_, ?_, ?_⟩
  · intro s hs hnb
    rw [resolve_name, hs, isNonBlank_true s hnb]
    rfl
  · intro hname s hs hnb
    rw [resolve_name, isNonBlank_false _ hname, hs, isNonBlank_true s hnb]
    rfl
  · intro hname halias
    rw [resolve_name, isNonBlank_false _ hname, isNonBlank_false _ halias]
    rfl

/-- Witness for C6 exercising all three branches on concrete stores. -/
theorem resolve_name_precedence_witness :
    resolve_name [("Device.X.Name", "eth0"), ("Device.X.Alias", "a0")]
      "Device.X." = "eth0" ∧
    resolve_name [("Device.Y.Alias", "wan")] "Device.Y" = "wan" ∧
    resolve_name [] "Device.Z" = "" := by
  refine ⟨?_, ?_, ?_⟩
  · exact (resolve_name_precedence
      [("Device.X.Name", "eth0"), ("Device.X.Alias", "a0")] "Device.X.").1
      "eth0" (by decide) (by decide)
  · refine (resolve_name_precedence [("Device.Y.Alias", "wan")] "Device.Y").2.1
      ?_ "wan" (by decide) (by decide)
    intro s hs
    rw [show get_attr [("Device.Y.Alias", "wan")] (rstripDots "Device.Y") "Name" =
      none by decide] at hs
    exact absurd hs (by simp)
  · refine (resolve_name_precedence [] "Device.Z").2.2 ?_ ?_
    · intro s hs
      rw [show get_attr [] (rstripDots "Device.Z") "Name" = none by rfl] at hs
      exact absurd hs (by simp)
    · intro s hs
      rw [show get_attr [] (rstripDots "Device.Z") "Alias" = none by rfl] at hs
      exact absurd hs (by simp)

theorem filter_map_eq_filterMap (l : List String) :
    (l.filter (fun r => !(pyStrip r == ""))).map (fun r => rstripDots (pyStrip r)) =
      l.filterMap
        (fun r => if pyStrip r = "" then none else some (rstripDots (pyStrip r))) := by
  induction l with
  | nil => rfl
  | cons r rest ih =>
    by_cases h : pyStrip r = ""
    · simp [List.filter_cons, List.filterMap_cons, h, ih]
    · simp [List.filter_cons, List.filterMap_cons, h, ih]

/-- C5 (amended): `get_lower_layers` splits the reference value on commas,
keeps exactly the elements that are non-blank BEFORE dot-trimming (so an
element consisting only of dots survives as an empty string — see the
counterexample), trims surrounding whitespace and then trailing dots from
each kept element, and preserves source order; the claim's concrete scenario
value resolves to the two expected trimmed references, and a missing
attribute yields the empty sequence. -/
theorem get_lower_layers_spec (dm : Dm) (p v : String) :
    (get_attr dm p "LowerLayers" =
        some "Device.IP.Interface.1.,Device.IP.Interface.2." →
      get_lower_layers dm p = ["Device.IP.Interface.1", "Device.IP.Interface.2"]) ∧
    (get_attr dm p "LowerLayers" = some v → v ≠ "" →
      get_lower_layers dm p =
        (splitComma v).filterMap
          (fun r => if pyStrip r = "" then none
            else some (rstripDots (pyStrip r)))) ∧
    (get_attr dm p "LowerLayers" = none → get_lower_layers dm p = []) := by
  refine ⟨?_, ?_, ?_⟩
  · intro h
    rw [get_lower_layers, h]
    decide
  · intro h hne
    simp only [get_lower_layers, h, if_neg hne]
    exact filter_map_eq_filterMap (splitComma v)
  · intro h
    rw [get_lower_layers, h]

/-- Witness for C5's amended theorem at the spec's scenario store. -/
theorem get_lower_layers_spec_witness :
    get_lower_layers
      [("Device.X.LowerLayers", "Device.IP.Interface.1.,Device.IP.Interface.2.")]
      "Device.X" = ["Device.IP.Interface.1", "Device.IP.Interface.2"] :=
  (get_lower_layers_spec
    [("Device.X.LowerLayers", "Device.IP.Interface.1.,Device.IP.Interface.2.")]
    "Device.X" "").1 (by decide)

/-- C5 counterexample: an element that is empty only after dot-trimming is
NOT dropped — a `LowerLayers` value of `"."` yields the one-element sequence
containing the empty string, not the empty sequence the claim requires. -/
theorem get_lower_layers_cex :
    get_lower_layers [("Device.X.LowerLayers", ".")] "Device.X" = [""] ∧
    get_lower_layers [("Device.X.LowerLayers", ".")] "Device.X" ≠ [] := by decide

theorem chainsFuel_ne (dm : Dm) :
    ∀ (n : Nat) (p : String) (cs : List (List String)),
      chainsFuel dm n p = some cs → ∀ c ∈ cs, c ≠ [] := by
  intro n
  cases n with
  | zero => intro p cs h; exact absurd h (by simp [chainsFuel])
  | succ n =>
    intro p cs h
    simp only [chainsFuel] at h
    cases hc : chainsChildren (chainsFuel dm n) (get_lower_layers dm (rstripDots p)) with
    | none => rw [hc] at h; exact absurd h (by simp)
    | some css =>
      rw [hc] at h
      have heq := Option.some.inj h
      intro c hmem
      rw [← heq] at hmem
      rcases List.mem_cons.mp hmem with h1 | h2
      · subst h1; simp
      · obtain ⟨c', _, rfl⟩ := List.mem_map.mp h2
        simp

theorem chainsChildren_ne (dm : Dm) (n : Nat) :
    ∀ (ls : List String) (css : List (List String)),
      chainsChildren (chainsFuel dm n) ls = some css → ∀ c ∈ css, c ≠ [] := by
  intro ls
  induction ls with
  | nil =>
    intro css h c hc
    simp only [chainsChildren] at h
    rw [← Option.some.inj h] at hc
    cases hc
  | cons x xs ih =>
    intro css h c hc
    simp only [chainsChildren] at h
    cases h1 : chainsFuel dm n x with
    | none => rw [h1] at h; exact absurd h (by simp)
    | some cs1 =>
      cases h2 : chainsChildren (chainsFuel dm n) xs with
      | none => rw [h1, h2] at h; exact absurd h (by simp)
      | some rest =>
        rw [h1, h2] at h
        rw [← Option.some.inj h] at hc
        rcases List.mem_append.mp hc with hm | hm
        · exact chainsFuel_ne dm n x cs1 h1 c hm
        · exact ih rest h2 c hm

theorem walkChildren_eq_chains (dm : Dm) (n : Nat)
    (ih : ∀ (p : String) (d : Nat), walkFuel dm n p d =
      (chainsFuel dm n p).map
        (fun cs => cs.map (fun c => (c.getLastD "", d + (c.length - 1))))) :
    ∀ (ls : List String) (d : Nat),
      walkChildren (walkFuel dm n) ls d =
        (chainsChildren (chainsFuel dm n) ls).map
          (fun css => css.map (fun c => (c.getLastD "", d + (c.length - 1)))) := by
  intro ls d
  induction ls with
  | nil => rfl
  | cons x xs ihl =>
    simp only [walkChildren, chainsChildren]
    rw [ih x d, ihl]
    cases chainsFuel dm n x with
    | none => rfl
    | some cs =>
      cases chainsChildren (chainsFuel dm n) xs with
      | none => rfl
      | some rest => simp [List.map_append]

/-- C3 (amended): the walk is a depth-first pre-order traversal that visits
exactly one `(node, depth)` pair per lower-layer chain from the root, in the
chains' depth-first order: whenever the fuel-bounded walk and chain
enumeration are taken with the same fuel, the walk's visit sequence is the
chain sequence mapped to (chain endpoint, start depth + chain length - 1), so
every visit's depth is its distance from the root along the followed chain
and a node reachable along several chains is visited once per chain (hence
exactly once only when the reachable reference graph is a tree). -/
theorem walk_visits_chains (dm : Dm) :
    ∀ (n : Nat) (path : String) (depth : Nat),
      walkFuel dm n path depth =
        (chainsFuel dm n path).map
          (fun cs => cs.map (fun c => (c.getLastD "", depth + (c.length - 1)))) := by
  intro n
  induction n with
  | zero => intro path depth; rfl
  | succ n ih =>
    intro path depth
    simp only [walkFuel, chainsFuel]
    rw [walkChildren_eq_chains dm n ih (get_lower_layers dm (rstripDots path)) (depth + 1)]
    cases hc : chainsChildren (chainsFuel dm n) (get_lower_layers dm (rstripDots path)) with
    | none => rfl
    | some css =>
      have hne : ∀ c ∈ css, c ≠ [] := chainsChildren_ne dm n _ css hc
      show some ((rstripDots path, depth) ::
          List.map (fun c => (c.getLastD "", depth + 1 + (c.length - 1))) css) =
        some (List.map (fun c => (c.getLastD "", depth + (c.length - 1)))
          ([rstripDots path] :: List.map (fun c => rstripDots path :: c) css))
      rw [List.map_cons, List.map_map]
      congr 1
      rw [List.cons_eq_cons]
      constructor
      · simp [List.getLastD_cons, List.getLastD_nil]
      · apply List.map_congr_left
        intro c hc2
        cases c with
        | nil => exact absurd rfl (hne [] hc2)
        | cons y ys =>
          simp only [Function.comp_apply, List.getLastD_cons, List.length_cons,
            Prod.mk.injEq]
          exact ⟨trivial, by omega⟩

theorem step_diamond (p q : String)
    (hp : p ∈ (["Device.A", "Device.B", "Device.C", "Device.D"] : List String))
    (hq : stepRel dmDiamond p q) :
    q ∈ (["Device.A", "Device.B", "Device.C", "Device.D"] : List String) ∧
      rnkDiamond p < rnkDiamond q := by
  unfold stepRel at hq
  simp only [List.mem_cons, List.mem_singleton, List.not_mem_nil, or_false] at hp
  rcases hp with rfl | rfl | rfl | rfl
  · rw [show get_lower_layers dmDiamond "Device.A" = ["Device.B", "Device.C"]
      from by decide] at hq
    simp only [List.mem_cons, List.not_mem_nil, or_false] at hq
    rcases hq with rfl | rfl
    · exact ⟨by simp, by decide⟩
    · exact ⟨by simp, by decide⟩
  · rw [show get_lower_layers dmDiamond "Device.B" = ["Device.D"]
      from by decide] at hq
    simp only [List.mem_singleton, List.mem_cons, List.not_mem_nil, or_false] at hq
    subst hq
    exact ⟨by simp, by decide⟩
  · rw [show get_lower_layers dmDiamond "Device.C" = ["Device.D"]
      from by decide] at hq
    simp only [List.mem_singleton, List.mem_cons, List.not_mem_nil, or_false] at hq
    subst hq
    exact ⟨by simp, by decide⟩
  · rw [show get_lower_layers dmDiamond "Device.D" = [] from by decide] at hq
    exact absurd hq (List.not_mem_nil q)

theorem reach_diamond (p : String) (h : Reaches dmDiamond "Device.A" p) :
    p ∈ (["Device.A", "Device.B", "Device.C", "Device.D"] : List String) := by
  unfold Reaches at h
  rw [show rstripDots "Device.A" = "Device.A" from by decide] at h
  induction h with
  | refl => simp
  | tail _ hbc ih => exact (step_diamond _ _ ih hbc).1

theorem transGen_rank_diamond (p q : String)
    (hp : p ∈ (["Device.A", "Device.B", "Device.C", "Device.D"] : List String))
    (h : Relation.TransGen (stepRel dmDiamond) p q) :
    q ∈ (["Device.A", "Device.B", "Device.C", "Device.D"] : List String) ∧
      rnkDiamond p < rnkDiamond q := by
  induction h with
  | single hs => exact step_diamond _ _ hp hs
  | tail _ hs ih =>
    obtain ⟨hm, hr⟩ := ih
    obtain ⟨hm2, hr2⟩ := step_diamond _ _ hm hs
    exact ⟨hm2, lt_trans hr hr2⟩

/-- The diamond store's lower-layer reference graph is acyclic from the root:
a rank function increases strictly along every edge among reachable nodes. -/
theorem acyclic_diamond : AcyclicFrom dmDiamond "Device.A" := by
  intro p hreach hcyc
  have hp := reach_diamond p hreach
  have := (transGen_rank_diamond p p hp hcyc).2
  omega

/-- C3 counterexample: on the acyclic diamond store (A refers to B and C,
both of which refer to D) the walk visits the reachable node `Device.D`
twice — once per lower-layer chain — so an acyclic reachable reference graph
does not make the walk visit each reachable node exactly once. -/
theorem walk_visits_chains_cex :
    AcyclicFrom dmDiamond "Device.A" ∧
    walkFuel dmDiamond 5 "Device.A" 0 =
      some [("Device.A", 0), ("Device.B", 1), ("Device.D", 2),
            ("Device.C", 1), ("Device.D", 2)] ∧
    ((walkFuel dmDiamond 5 "Device.A" 0).getD []).countP
      (fun visit => visit.1 == "Device.D") = 2 :=
  ⟨acyclic_diamond, by decide, by decide⟩

theorem walkChildren_isSome (f : String → Nat → Option (List (String × Nat)))
    (ls : List String) (d : Nat) (h : ∀ x ∈ ls, (f x d).isSome) :
    (walkChildren f ls d).isSome := by
  induction ls with
  | nil => simp [walkChildren]
  | cons x xs ih =>
    have h1 := h x (List.mem_cons_self x xs)
    obtain ⟨v, hv⟩ := Option.isSome_iff_exists.mp h1
    have h2 := ih (fun y hy => h y (List.mem_cons_of_mem x hy))
    obtain ⟨vs, hvs⟩ := Option.isSome_iff_exists.mp h2
    simp [walkChildren, hv, hvs]

theorem rstripDots_idem (s : String) : rstripDots (rstripDots s) = rstripDots s := by
  show String.mk (rstripWith (fun c => c = '.')
      (rstripWith (fun c => c = '.') s.data)) =
    String.mk (rstripWith (fun c => c = '.') s.data)
  unfold rstripWith
  rw [List.reverse_reverse, List.dropWhile_idempotent]

theorem mem_splitRefs_rstrip (v : String) :
    ∀ x ∈ splitRefs v, rstripDots x = x := by
  intro x hx
  unfold splitRefs at hx
  obtain ⟨r, _, rfl⟩ := List.mem_map.mp hx
  exact rstripDots_idem (pyStrip r)

theorem step_norm (dm : Dm) (p q : String) (h : stepRel dm p q) :
    rstripDots q = q := by
  unfold stepRel get_lower_layers at h
  cases ha : get_attr dm p "LowerLayers" with
  | none => rw [ha] at h; exact absurd h (by simp)
  | some v =>
    rw [ha] at h
    have h2 : q ∈ (if v = "" then [] else splitRefs v) := h
    by_cases hv : v = ""
    · rw [if_pos hv] at h2; cases h2
    · rw [if_neg hv] at h2
      exact mem_splitRefs_rstrip v q h2

theorem lookup_mem (dm : Dm) (k v : String) (h : lookupDm dm k = some v) :
    (k, v) ∈ dm := by
  induction dm with
  | nil => cases h
  | cons kv rest ih =>
    obtain ⟨k', v'⟩ := kv
    by_cases hk : k' = k
    · simp only [lookupDm, if_pos hk] at h
      rw [← hk, ← Option.some.inj h]
      exact List.mem_cons_self _ _
    · simp only [lookupDm, if_neg hk] at h
      exact List.mem_cons_of_mem _ (ih h)

theorem step_mem_univ (dm : Dm) (root p q : String) (h : stepRel dm p q) :
    q ∈ nodeUniv dm root := by
  unfold stepRel get_lower_layers at h
  cases ha : get_attr dm p "LowerLayers" with
  | none => rw [ha] at h; exact absurd h (by simp)
  | some v =>
    rw [ha] at h
    have h2 : q ∈ (if v = "" then [] else splitRefs v) := h
    by_cases hv : v = ""
    · rw [if_pos hv] at h2; cases h2
    · rw [if_neg hv] at h2
      have hv2 : ∃ k, lookupDm dm k = some v := by
        unfold get_attr at ha
        cases h1 : lookupDm dm (p ++ "." ++ "LowerLayers") with
        | some w =>
          rw [h1] at ha
          exact ⟨p ++ "." ++ "LowerLayers", by rw [h1, Option.some.inj ha]⟩
        | none =>
          rw [h1] at ha
          exact ⟨p ++ ".." ++ "LowerLayers", ha⟩
      obtain ⟨k, hk⟩ := hv2
      have hmem := lookup_mem dm k v hk
      unfold nodeUniv
      apply List.mem_cons_of_mem
      rw [List.mem_flatten]
      exact ⟨splitRefs v, List.mem_map.mpr ⟨(k, v), hmem, rfl⟩, h2⟩

theorem chain_transGen (dm : Dm) : ∀ (l : List String) (p q : String),
    List.Chain (stepRel dm) p l → q ∈ l →
      Relation.TransGen (stepRel dm) p q := by
  intro l
  induction l with
  | nil => intro p q _ hq; cases hq
  | cons x xs ih =>
    intro p q hc hq
    rw [List.chain_cons] at hc
    obtain ⟨hpx, hcx⟩ := hc
    rcases List.mem_cons.mp hq with rfl | hq'
    · exact Relation.TransGen.single hpx
    · exact Relation.TransGen.head hpx (ih x q hcx hq')

theorem chain_nodup (dm : Dm) (root : String) (hacyc : AcyclicFrom dm root) :
    ∀ (l : List String) (p : String), Reaches dm root p →
      List.Chain (stepRel dm) p l → (p :: l).Nodup := by
  intro l
  induction l with
  | nil => intro p _ _; simp
  | cons x xs ih =>
    intro p hreach hc
    have hc' := hc
    rw [List.chain_cons] at hc'
    obtain ⟨hpx, hcx⟩ := hc'
    have hreach' : Reaches dm root x := Relation.ReflTransGen.tail hreach hpx
    have hnod := ih x hreach' hcx
    rw [List.nodup_cons]
    refine ⟨?_, hnod⟩
    intro hmem
    exact hacyc p hreach (chain_transGen dm (x :: xs) p p hc hmem)

theorem chain_subset_univ (dm : Dm) (root : String) :
    ∀ (l : List String) (p : String), List.Chain (stepRel dm) p l →
      ∀ q ∈ l, q ∈ nodeUniv dm root := by
  intro l
  induction l with
  | nil => intro p _ q hq; cases hq
  | cons x xs ih =>
    intro p hc q hq
    rw [List.chain_cons] at hc
    rcases List.mem_cons.mp hq with rfl | hq'
    · exact step_mem_univ dm root p q hc.1
    · exact ih x hc.2 q hq'

theorem chain_length_lt (dm : Dm) (root : String) (hacyc : AcyclicFrom dm root)
    (l : List String) (hc : List.Chain (stepRel dm) (rstripDots root) l) :
    l.length < (nodeUniv dm root).length := by
  have hreach : Reaches dm root (rstripDots root) := Relation.ReflTransGen.refl
  have hnod : (rstripDots root :: l).Nodup :=
    chain_nodup dm root hacyc l (rstripDots root) hreach hc
  have hsub : (rstripDots root :: l) ⊆ nodeUniv dm root := by
    intro q hq
    rcases List.mem_cons.mp hq with rfl | hq'
    · exact List.mem_cons_self _ _
    · exact chain_subset_univ dm root l (rstripDots root) hc q hq'
  have hlen := (hnod.subperm hsub).length_le
  simp only [List.length_cons] at hlen
  omega

theorem walkFuel_isSome_of_bound (dm : Dm) :
    ∀ (n : Nat) (p : String) (d : Nat),
      (∀ l, List.Chain (stepRel dm) (rstripDots p) l → l.length < n) →
      (walkFuel dm n p d).isSome := by
  intro n
  induction n with
  | zero =>
    intro p d h
    exact absurd (h [] List.Chain.nil) (by simp)
  | succ n ih =>
    intro p d h
    simp only [walkFuel]
    have hch : (walkChildren (walkFuel dm n)
        (get_lower_layers dm (rstripDots p)) (d + 1)).isSome := by
      apply walkChildren_isSome
      intro x hx
      apply ih
      intro l hl
      have hnorm : rstripDots x = x := step_norm dm (rstripDots p) x hx
      rw [hnorm] at hl
      have hcons : List.Chain (stepRel dm) (rstripDots p) (x :: l) :=
        List.chain_cons.mpr ⟨hx, hl⟩
      have := h (x :: l) hcons
      simp only [List.length_cons] at this
      omega
    obtain ⟨rest, hrest⟩ := Option.isSome_iff_exists.mp hch
    rw [hrest]
    rfl

/-- C4: the walk yields a finite traversal for every store and root path
whose lower-layer reference relation reachable from the root is acyclic —
acyclicity alone makes the guard-free recursion well-founded: some finite
fuel (the size of the reference universe suffices) makes the fuel-bounded
walk succeed. -/
theorem walk_terminates_of_acyclic (dm : Dm) (root : String)
    (h : AcyclicFrom dm root) : ∃ n, (walkFuel dm n root 0).isSome :=
  ⟨(nodeUniv dm root).length,
    walkFuel_isSome_of_bound dm (nodeUniv dm root).length root 0
      (fun l hl => chain_length_lt dm root h l hl)⟩

/-- Witness for C4 on the concrete acyclic diamond store. -/
theorem walk_terminates_of_acyclic_witness :
    ∃ n, (walkFuel dmDiamond n "Device.A" 0).isSome :=
  walk_terminates_of_acyclic dmDiamond "Device.A" acyclic_diamond
